import Mathlib

/-!
# Verification of the OS_CustomShell core

A shallow embedding in Lean 4 of the lexer (src/parser.c, `tokenize`), the
parser (src/parser.c, `parse_command` and `parse_pipeline`), the foreground
wait phase of the executor (src/executor.c), and the job table (src/jobs.c),
together with theorems settling the specified properties.

Conventions of the embedding:
* C strings are `List Char` / `String`; the process environment (`getenv`) is
  a parameter `env : String → Option String`.
* The tokenizer main loop runs on explicit fuel; the fuel is instantiated
  with the length of the input, which each loop iteration strictly decreases,
  so the fuel never runs out on the real entry point.
* `int` counters that can go negative (`num_jobs`) are `Int`; values that the
  code keeps nonnegative (`job_id`, `next_job_id`, indices) are `Nat`.
* Fallible functions return an explicit result inductive mirroring the C
  return value plus out-parameters.
-/

namespace CustomShell

/-! ## Constants (src/utils.h) -/

def MAX_INPUT_SIZE : Nat := 4096
def MAX_ARGS : Nat := 64
def MAX_TOKENS : Nat := 128
def MAX_JOBS : Nat := 100

/-! ## Lexer (src/parser.c, `tokenize`) -/

/-- `isspace` of the C locale: space, tab, newline, vertical tab, form feed,
carriage return. -/
def isSpaceC (c : Char) : Bool :=
  c = ' ' || c = '\t' || c = '\n' || c = Char.ofNat 11 || c = Char.ofNat 12 || c = '\r'

/-- `isalnum(c) || c == '_'`: the characters of a variable name. -/
def isVarChar (c : Char) : Bool :=
  c.isAlphanum || c = '_'

/-- The double quote character. -/
def dquoteChar : Char := Char.ofNat 34

/-- The single quote character. -/
def squoteChar : Char := Char.ofNat 39

/-- The opening brace character. -/
def lbraceChar : Char := Char.ofNat 123

/-- The closing brace character. -/
def rbraceChar : Char := Char.ofNat 125

/-- `process_escape` (src/parser.c:11-22): the character an escape sequence
inside double quotes stands for; unknown escapes are returned as-is. -/
def process_escape (c : Char) : Char :=
  if c = 'n' then '\n'
  else if c = 't' then '\t'
  else if c = 'r' then '\r'
  else if c = '\\' then '\\'
  else if c = dquoteChar then dquoteChar
  else if c = squoteChar then squoteChar
  else if c = '0' then Char.ofNat 0
  else c

/-- Append one character to the token buffer, subject to the capacity check
`token_buf_pos < MAX_INPUT_SIZE - 1` guarding every write (src/parser.c). -/
def appendBuf (buf : List Char) (c : Char) : List Char :=
  if buf.length < MAX_INPUT_SIZE - 1 then buf ++ [c] else buf

/-- Append an expanded variable value character by character; the C loop stops
as soon as the buffer is full (src/parser.c:157-160), which coincides with
folding the guarded single-character append. -/
def appendChars (buf : List Char) (cs : List Char) : List Char :=
  cs.foldl appendBuf buf

/-- `strdup` of the token buffer stops at the first embedded NUL byte
(a NUL can enter the buffer through the escape `\0`). -/
def cstr (l : List Char) : List Char :=
  l.takeWhile (fun c => c ≠ Char.ofNat 0)

/-- Scan of a `$VAR` name (src/parser.c:147-150): identifier characters, at
most 255 of them.  Returns the name and the unconsumed rest. -/
def takeVarPlain : Nat → List Char → List Char × List Char
  | _, [] => ([], [])
  | k, c :: rest =>
    if isVarChar c && k < 255 then
      let r := takeVarPlain (k + 1) rest
      (c :: r.1, r.2)
    else ([], c :: rest)

/-- Inner loop of the `${VAR}` scan (src/parser.c:134-141): stops at end of
input, at the closing brace, after 255 characters, or at the first
non-identifier character. -/
def takeBracedLoop : Nat → List Char → List Char × List Char
  | _, [] => ([], [])
  | k, c :: rest =>
    if c = rbraceChar then ([], c :: rest)
    else if k < 255 then
      if isVarChar c then
        let r := takeBracedLoop (k + 1) rest
        (c :: r.1, r.2)
      else ([], c :: rest)
    else ([], c :: rest)

/-- Scan of a `${VAR}` name after the opening brace, including the optional
skip of the closing brace (src/parser.c:132-144). -/
def takeVarBraced (l : List Char) : List Char × List Char :=
  let r := takeBracedLoop 0 l
  match r.2 with
  | c :: rest2 => if c = rbraceChar then (r.1, rest2) else (r.1, r.2)
  | [] => (r.1, [])

/-- `expand_variable` (src/parser.c:27-38): empty names and unset variables
yield `none` (C: `NULL`). -/
def expand_variable (env : String → Option String) (name : List Char) : Option String :=
  if name.length = 0 then none else env (String.mk name)

/-- Does a `$` start a variable reference?  The C condition is
`isalnum(p[1]) || p[1] == '_' || p[1] == '{'` on the character after the
dollar sign (src/parser.c:125,198). -/
def varStart : List Char → Bool
  | [] => false
  | d :: _ => isVarChar d || d = lbraceChar

/-- Dispatch between the `${VAR}` and `$VAR` scans, on the input after the
dollar sign (src/parser.c:131-151). -/
def scanVar : List Char → List Char × List Char
  | [] => ([], [])
  | d :: rest => if d = lbraceChar then takeVarBraced rest else takeVarPlain 0 (d :: rest)

/-- Perform one variable expansion into the token buffer; this block is
textually duplicated in the C source for the `Normal` (src/parser.c:125-163)
and `DoubleQuote` (src/parser.c:198-236) states. -/
def expandInto (env : String → Option String) (buf : List Char) (l : List Char) :
    List Char × List Char :=
  let r := scanVar l
  match expand_variable env r.1 with
  | some v => (appendChars buf v.data, r.2)
  | none => (buf, r.2)

/-- The lexer states (src/parser.c:69-74). -/
inductive LexState where
  | normal
  | singleQuote
  | doubleQuote
  | escape
deriving DecidableEq, Repr

/-- The main tokenizer loop (src/parser.c:91-259).  Arguments: fuel, the
remaining input, the state, the token buffer, the tokens committed so far.
Returns the committed tokens, the final buffer and the final state.  The loop
runs while input remains and `token_count < MAX_TOKENS - 1`; every iteration
consumes at least one input character, so fuel `≥` input length never runs
out (the fuel-exhaustion branch is unreachable from `tokenize`). -/
def tokLoop (env : String → Option String) :
    Nat → List Char → LexState → List Char → List (List Char) →
    List (List Char) × List Char × LexState
  | _, [], state, buf, toks => (toks, buf, state)
  | 0, _ :: _, state, buf, toks => (toks, buf, state)
  | fuel + 1, c :: rest, state, buf, toks =>
    if toks.length < MAX_TOKENS - 1 then
      match state with
      | .normal =>
        if isSpaceC c then
          -- whitespace ends the current token, then the whitespace run is skipped
          let toks2 := if buf.length > 0 then toks ++ [cstr buf] else toks
          tokLoop env fuel ((c :: rest).dropWhile isSpaceC) .normal [] toks2
        else if c = squoteChar then
          tokLoop env fuel rest .singleQuote buf toks
        else if c = dquoteChar then
          tokLoop env fuel rest .doubleQuote buf toks
        else if c = '$' && varStart rest then
          let r := expandInto env buf rest
          tokLoop env fuel r.2 .normal r.1 toks
        else if c = '\\' then
          -- a bare backslash in Normal state is a literal backslash
          tokLoop env fuel rest .normal (appendBuf buf c) toks
        else
          tokLoop env fuel rest .normal (appendBuf buf c) toks
      | .singleQuote =>
        if c = squoteChar then
          tokLoop env fuel rest .normal buf toks
        else
          tokLoop env fuel rest .singleQuote (appendBuf buf c) toks
      | .doubleQuote =>
        if c = '\\' then
          tokLoop env fuel rest .escape buf toks
        else if c = '$' && varStart rest then
          let r := expandInto env buf rest
          tokLoop env fuel r.2 .doubleQuote r.1 toks
        else if c = dquoteChar then
          tokLoop env fuel rest .normal buf toks
        else
          tokLoop env fuel rest .doubleQuote (appendBuf buf c) toks
      | .escape =>
        tokLoop env fuel rest .doubleQuote (appendBuf buf (process_escape c)) toks
    else (toks, buf, state)

/-- Result of `tokenize`: `-1` with a diagnostic, or `0` with the token array
set to `NULL` (empty or all-whitespace input), or the token array with its
count. -/
inductive TokenizeResult where
  | error
  | empty
  | ok (tokens : List String)
deriving DecidableEq, Repr

/-- `tokenize` (src/parser.c:46-308): skip leading whitespace, run the state
machine, reject unterminated quotes, commit a pending final token. -/
def tokenize (env : String → Option String) (input : String) : TokenizeResult :=
  let p := input.data.dropWhile isSpaceC
  if p.isEmpty then .empty
  else
    let r := tokLoop env p.length p .normal [] []
    if r.2.2 = .singleQuote then .error
    else if r.2.2 = .doubleQuote || r.2.2 = .escape then .error
    else
      let toks := if r.2.1.length > 0 then r.1 ++ [cstr r.2.1] else r.1
      .ok (toks.map String.mk)

/-! ## Parser (src/parser.c, `parse_command` and `parse_pipeline`) -/

/-- `Command` (src/parser.h): one pipeline segment after reduction. -/
structure Command where
  argv : List String
  input_file : Option String
  output_file : Option String
  append_mode : Bool
  background : Bool
deriving DecidableEq, Repr

/-- The parse errors, each standing for one diagnostic of src/parser.c:
`unexpectedTok t` for the message "syntax error near unexpected token 't'",
`multipleInputRedirections` / `multipleOutputRedirections` for the multiple
redirection messages, `ampMustBeAtEnd` for "& must be at end of command", and
`emptyCommand` for the silent `-1` on a NULL first token. -/
inductive ParseErr where
  | unexpectedTok (t : String)
  | multipleInputRedirections
  | multipleOutputRedirections
  | ampMustBeAtEnd
  | emptyCommand
deriving DecidableEq, Repr

/-- Result of a parse entry point: the C `-1` with its diagnostic, or `0`
with the out-parameter filled. -/
inductive PRes (α : Type) where
  | error (e : ParseErr)
  | ok (a : α)
deriving DecidableEq, Repr

/-- The token-consuming loop of `parse_command` (src/parser.c:340-429):
`argc` mirrors the C counter, `cmd` the partially filled structure.  The loop
runs while tokens remain and `argc < MAX_ARGS - 1`. -/
def parseCmdLoop : List String → Nat → Command → PRes Command
  | [], _, cmd => .ok cmd
  | t :: rest, argc, cmd =>
    if argc < MAX_ARGS - 1 then
      if t = "<" then
        match rest with
        | [] => .error (.unexpectedTok "<")
        | f :: rest2 =>
          if cmd.input_file ≠ none then .error .multipleInputRedirections
          else parseCmdLoop rest2 argc { cmd with input_file := some f }
      else if t = ">" then
        match rest with
        | [] => .error (.unexpectedTok ">")
        | f :: rest2 =>
          if cmd.output_file ≠ none then .error .multipleOutputRedirections
          else parseCmdLoop rest2 argc { cmd with output_file := some f, append_mode := false }
      else if t = ">>" then
        match rest with
        | [] => .error (.unexpectedTok ">>")
        | f :: rest2 =>
          if cmd.output_file ≠ none then .error .multipleOutputRedirections
          else parseCmdLoop rest2 argc { cmd with output_file := some f, append_mode := true }
      else if t = "&" then
        match rest with
        | _ :: _ => .error .ampMustBeAtEnd    -- `&` not the last token of the segment
        | [] => .ok { cmd with background := true }   -- set flag and break
      else
        parseCmdLoop rest (argc + 1) { cmd with argv := cmd.argv ++ [t] }
    else .ok cmd

/-- `parse_command` (src/parser.c:313-436): reduce one token segment to a
`Command`.  A NULL first token is the silent `-1` at src/parser.c:325-327.
Note that an empty `argv` after reduction is NOT rejected. -/
def parse_command (tokens : List String) : PRes Command :=
  if tokens.isEmpty then .error .emptyCommand
  else
    parseCmdLoop tokens 0
      { argv := [], input_file := none, output_file := none,
        append_mode := false, background := false }

/-- `Pipeline` (src/parser.h). -/
structure Pipeline where
  commands : List Command
  num_commands : Nat
  background : Bool
deriving DecidableEq, Repr

/-- The segment-splitting loop of `parse_pipeline` (src/parser.c:492-538):
walk the tokens, and at each `|` reduce the accumulated segment (empty
segments are the "syntax error near unexpected token '|'" case).  Returns the
commands of the pipe-terminated segments and the tokens after the last `|`. -/
def pipeSplitLoop : List String → List String → List Command →
    PRes (List Command × List String)
  | [], seg, cmds => .ok (cmds, seg)
  | t :: rest, seg, cmds =>
    if t = "|" then
      if seg.length = 0 then .error (.unexpectedTok "|")
      else
        match parse_command seg with
        | .error e => .error e
        | .ok c => pipeSplitLoop rest [] (cmds ++ [c])
    else pipeSplitLoop rest (seg ++ [t]) cmds

/-- `parse_pipeline` (src/parser.c:442-597): count pipes, detect a trailing
`&`, split on `|`, reduce each segment, strip the trailing `&` from the last
segment only. -/
def parse_pipeline (tokens : List String) : PRes Pipeline :=
  let pipe_count := tokens.countP (fun t => t == "|")
  let has_background := tokens.getLast? = some "&"
  let num_commands := pipe_count + 1
  match pipeSplitLoop tokens [] [] with
  | .error e => .error e
  | .ok r =>
    let lastSeg := r.2
    if lastSeg.length = 0 then .error (.unexpectedTok "|")
    else
      let segTokens :=
        if has_background ∧ lastSeg.getLast? = some "&" then lastSeg.dropLast else lastSeg
      match parse_command segTokens with
      | .error e => .error e
      | .ok c =>
        .ok { commands := r.1 ++ [c], num_commands := num_commands,
              background := has_background }

/-- The pipe detection of the REPL (src/shell.c:104-111): scan the tokens for
one spelled exactly `|`. -/
def has_pipe : List String → Bool
  | [] => false
  | t :: rest => if t = "|" then true else has_pipe rest

/-! ## Executor foreground wait phase (src/executor.c) -/

/-- What `waitpid` with `WUNTRACED` reports for a child: normal exit with the
code passed to `exit`, death by a signal, or a stop. -/
inductive ChildStatus where
  | exited (code : Nat)
  | signaled (sig : Nat)
  | stopped (sig : Nat)
deriving DecidableEq, Repr

/-- The status decode of the foreground branch of `execute_command`
(src/executor.c:171-190): `WIFEXITED → WEXITSTATUS` (the low byte of the exit
code), `WIFSIGNALED → 128 + WTERMSIG`, `WIFSTOPPED →` record a stopped job
and return `0`. -/
def execute_command_wait : ChildStatus → Int
  | .exited code => (code : Int) % 256
  | .signaled sig => 128 + (sig : Int)
  | .stopped _ => 0

/-- The wait phase of `execute_pipeline` for a foreground pipeline
(src/executor.c:448-494): `last_status` starts at `0`; `waitpid` on the LAST
child alone decides it, with the same decode as `execute_command`; the
remaining children are reaped with `WNOHANG` and their statuses are
explicitly discarded (src/executor.c:487-494). -/
def execute_pipeline_wait (statuses : List ChildStatus) : Int :=
  match statuses.getLast? with
  | none => 0
  | some (.exited code) => (code : Int) % 256
  | some (.signaled sig) => 128 + (sig : Int)
  | some (.stopped _) => 0

/-- The foreground result of `execute_pipeline` (src/executor.c:212-219,
448-509) as a function of the children's wait statuses: no commands is the
`-1` guard, one command delegates to `execute_command`, several commands run
the pipeline wait phase. -/
def execute_pipeline_fg : List ChildStatus → Int
  | [] => -1
  | [st] => execute_command_wait st
  | sts => execute_pipeline_wait sts

/-! ## Job table (src/jobs.c) -/

/-- `JobStatus` (src/jobs.h). -/
inductive JobStatus where
  | running
  | stopped
  | done
deriving DecidableEq, Repr

/-- One slot of the job table (src/jobs.h); `job_id = 0` marks a free slot,
`command = none` a NULL string. -/
structure Job where
  job_id : Nat
  pgid : Int
  command : Option String
  status : JobStatus
deriving DecidableEq, Repr

/-- The static state of src/jobs.c: the table, the id counter, and the
(signed) `num_jobs` counter. -/
structure JobsState where
  job_table : List Job
  next_job_id : Nat
  num_jobs : Int
deriving DecidableEq, Repr

/-- `init_jobs` (src/jobs.c:16-25). -/
def init_jobs : JobsState :=
  { job_table := List.replicate MAX_JOBS
      { job_id := 0, pgid := 0, command := none, status := .done },
    next_job_id := 1, num_jobs := 0 }

/-- The empty-slot search of `add_job` (src/jobs.c:34-40): index of the first
slot with `job_id == 0`. -/
def findFreeSlot : List Job → Option Nat
  | [] => none
  | e :: rest => if e.job_id = 0 then some 0 else (findFreeSlot rest).map (· + 1)

/-- `add_job` (src/jobs.c:28-57), with `strdup` assumed to succeed: fail if
`num_jobs >= MAX_JOBS` or no slot is free (each leaving the state unchanged),
otherwise fill the first free slot, bump the id counter and `num_jobs`, and
return the assigned id. -/
def add_job (s : JobsState) (pgid : Int) (command : String) (status : JobStatus) :
    Option Nat × JobsState :=
  if (MAX_JOBS : Int) ≤ s.num_jobs then (none, s)
  else
    match findFreeSlot s.job_table with
    | none => (none, s)
    | some slot =>
      (some s.next_job_id,
       { job_table := s.job_table.set slot
           { job_id := s.next_job_id, pgid := pgid, command := some command,
             status := status },
         next_job_id := s.next_job_id + 1,
         num_jobs := s.num_jobs + 1 })

/-- The slot search of `remove_job` (src/jobs.c:61-62): index of the first
slot whose `job_id` equals the argument. -/
def findSlotById (id : Nat) : List Job → Option Nat
  | [] => none
  | e :: rest => if e.job_id = id then some 0 else (findSlotById id rest).map (· + 1)

/-- `remove_job` (src/jobs.c:60-72): clear the first slot holding the id and
decrement `num_jobs`; no match is a no-op. -/
def remove_job (s : JobsState) (job_id : Nat) : JobsState :=
  match findSlotById job_id s.job_table with
  | none => s
  | some i =>
    { job_table := s.job_table.set i
        { job_id := 0, pgid := 0, command := none, status := .done },
      next_job_id := s.next_job_id,
      num_jobs := s.num_jobs - 1 }

/-- The purge condition of `cleanup_jobs` (src/jobs.c:133). -/
def jobDoneP (e : Job) : Bool :=
  decide (e.job_id ≠ 0 ∧ e.status = JobStatus.done)

/-- The clearing a slot undergoes in `cleanup_jobs` (src/jobs.c:134-137):
`job_id`, `pgid` and `command` are reset, the status field is not. -/
def clearSlot (e : Job) : Job :=
  if jobDoneP e then { job_id := 0, pgid := 0, command := none, status := e.status }
  else e

/-- `cleanup_jobs` (src/jobs.c:131-141): clear every used slot with status
`JOB_DONE`, decrementing `num_jobs` once per cleared slot. -/
def cleanup_jobs (s : JobsState) : JobsState :=
  { job_table := s.job_table.map clearSlot,
    next_job_id := s.next_job_id,
    num_jobs := s.num_jobs - (s.job_table.countP jobDoneP : Int) }

/-- One job-table operation of a session. -/
inductive JobOp where
  | add (pgid : Int) (command : String) (status : JobStatus)
  | remove (job_id : Nat)
  | cleanup
deriving DecidableEq, Repr

/-- Apply one operation to the state (the returned id of `add_job` is
dropped). -/
def applyOp (s : JobsState) : JobOp → JobsState
  | .add p c st => (add_job s p c st).2
  | .remove id => remove_job s id
  | .cleanup => cleanup_jobs s

/-- Run a session: the operations applied in order after `init_jobs`. -/
def runOps (ops : List JobOp) : JobsState :=
  ops.foldl applyOp init_jobs

/-- The job ids returned by the successful `add_job` calls of a session
fragment, in call order. -/
def assignedIds : JobsState → List JobOp → List Nat
  | _, [] => []
  | s, op :: rest =>
    match op with
    | .add p c st =>
      match add_job s p c st with
      | (some id, s2) => id :: assignedIds s2 rest
      | (none, s2) => assignedIds s2 rest
    | _ => assignedIds (applyOp s op) rest

/-- The number of used slots (nonzero `job_id`). -/
def countUsed (table : List Job) : Nat :=
  table.countP (fun e => decide (e.job_id ≠ 0))

/-- The claimed job-table invariant: `num_jobs` equals the number of used
slots. -/
def jobsInv (s : JobsState) : Prop :=
  s.num_jobs = (countUsed s.job_table : Int)

instance (s : JobsState) : Decidable (jobsInv s) := by
  unfold jobsInv; infer_instance

/-- Does an operation avoid the degenerate `remove_job(0)` call? -/
def opOk : JobOp → Bool
  | .remove id => id != 0
  | _ => true

/-! ## Helper lemmas -/

/-- For a nonempty status list, the foreground executor result is the
pipeline wait decode: the single-command path of `execute_command` decodes a
status exactly as the pipeline wait phase does. -/
theorem execute_pipeline_fg_eq_wait (sts : List ChildStatus) (h : sts ≠ []) :
    execute_pipeline_fg sts = execute_pipeline_wait sts := by
  match sts with
  | [] => exact absurd rfl h
  | [st] => cases st <;> rfl
  | a :: b :: rest => rfl

/-- `has_pipe` detects exactly the presence of a token spelled `|`. -/
theorem has_pipe_iff_mem (toks : List String) : has_pipe toks = true ↔ "|" ∈ toks := by
  induction toks with
  | nil => simp [has_pipe]
  | cons t rest ih =>
    by_cases h : t = "|"
    · simp [has_pipe, h]
    · simp [has_pipe, h, ih, List.mem_cons, Ne.symm h]

/-! ## Claims -/

/-- C1: For every foreground pipeline whose last child terminates, the value
returned by the executor equals the exit status of the LAST command:
`WEXITSTATUS` (the low byte of the exit code) if the last child exited
normally, and `128 + signal_number` if it was killed by a signal; the
statuses of the other commands do not affect the result. -/
theorem pipeline_exit_status_is_last (sts : List ChildStatus) (h : sts ≠ []) :
    (∀ code, sts.getLast? = some (.exited code) →
      execute_pipeline_fg sts = (code : Int) % 256) ∧
    (∀ sig, sts.getLast? = some (.signaled sig) →
      execute_pipeline_fg sts = 128 + (sig : Int)) ∧
    (∀ sts2, sts2 ≠ [] → sts2.getLast? = sts.getLast? →
      execute_pipeline_fg sts2 = execute_pipeline_fg sts) := by
  refine ⟨?_, ?_, ?_⟩
  · intro code hlast
    rw [execute_pipeline_fg_eq_wait sts h]
    simp [execute_pipeline_wait, hlast]
  · intro sig hlast
    rw [execute_pipeline_fg_eq_wait sts h]
    simp [execute_pipeline_wait, hlast]
  · intro sts2 h2 hlast
    rw [execute_pipeline_fg_eq_wait sts h, execute_pipeline_fg_eq_wait sts2 h2]
    simp [execute_pipeline_wait, hlast]

/-- Witness for C1 at the concrete status list `[exited 7, signaled 9]`. -/
theorem pipeline_exit_status_is_last_witness :
    execute_pipeline_fg [ChildStatus.exited 7, ChildStatus.signaled 9] = 128 + (9 : Int) :=
  (pipeline_exit_status_is_last [ChildStatus.exited 7, ChildStatus.signaled 9]
    (by decide)).2.1 9 (by decide)

/-- C8: lexing is a deterministic function of the input line and the
environment: two runs of `tokenize` on the same input yield the same token
sequence. -/
theorem tokenize_deterministic (env : String → Option String) (input : String)
    (t1 t2 : TokenizeResult)
    (h1 : tokenize env input = t1) (h2 : tokenize env input = t2) : t1 = t2 :=
  h1 ▸ h2

/-- Witness for C8: two runs on the input `echo hi` agree. -/
theorem tokenize_deterministic_witness :
    TokenizeResult.ok ["echo", "hi"] = TokenizeResult.ok ["echo", "hi"] :=
  tokenize_deterministic (fun _ => none) "echo hi"
    (TokenizeResult.ok ["echo", "hi"]) (TokenizeResult.ok ["echo", "hi"])
    (by decide) (by decide)

/-- C10: for every input line that is empty or consists only of whitespace,
`tokenize` returns zero tokens with the token array set to NULL (the `empty`
result, which is neither the error result nor a one-token result). -/
theorem whitespace_input_yields_null (env : String → Option String) (input : String)
    (h : input.data.all isSpaceC = true) :
    tokenize env input = TokenizeResult.empty := by
  have hd : input.data.dropWhile isSpaceC = [] := by
    rw [List.dropWhile_eq_nil_iff]
    intro x hx
    exact List.all_eq_true.mp h x hx
  simp [tokenize, hd]

/-- Witness for C10 at a space-tab-space input. -/
theorem whitespace_input_yields_null_witness :
    tokenize (fun _ => none) " \t " = TokenizeResult.empty :=
  whitespace_input_yields_null (fun _ => none) " \t " (by decide)

/-- C2 counterexample: in the input line `a "|" b` the character `|` appears
only inside double quotes, yet it lexes to the bare token `|`, the REPL's
pipe scan detects it, and `parse_pipeline` interprets it as a pipe operator
splitting the line into two commands. -/
theorem quoted_operator_is_still_operator_cex :
    tokenize (fun _ => none) "a \"|\" b" = TokenizeResult.ok ["a", "|", "b"] ∧
    has_pipe ["a", "|", "b"] = true ∧
    parse_pipeline ["a", "|", "b"] =
      PRes.ok ⟨[⟨["a"], none, none, false, false⟩, ⟨["b"], none, none, false, false⟩],
        2, false⟩ := by
  refine ⟨by decide, by decide, by decide⟩

/-- C2 amended: the lexer erases quoting, so a quoted operator spelling
yields the very token an unquoted one yields, and the parser recognizes
operators purely by token spelling; an operator character is literal exactly
when it is part of a longer token, since the lexer never splits a token at an
operator character. -/
theorem quoting_erased_before_parsing :
    tokenize (fun _ => none) "a \"|\" b" = tokenize (fun _ => none) "a | b" ∧
    (∀ toks, has_pipe toks = true ↔ "|" ∈ toks) ∧
    tokenize (fun _ => none) "a \"x|y\"" = TokenizeResult.ok ["a", "x|y"] ∧
    has_pipe ["a", "x|y"] = false := by
  exact ⟨by decide, has_pipe_iff_mem, by decide, by decide⟩

/-- C3 counterexample: the segment `< f` reduces to an empty `argv`, yet
`parse_command` returns success (with the redirection recorded), not a syntax
error. -/
theorem empty_argv_accepted_cex :
    parse_command ["<", "f"] =
      PRes.ok { argv := [], input_file := some "f", output_file := none,
                append_mode := false, background := false } := by decide

/-- C3 amended: the parser rejects a pipeline segment only when the segment
has zero tokens (diagnostic "syntax error near unexpected token '|'"); a
segment consisting solely of redirection operators and their operands parses
successfully and yields a `Command` with empty `argv` — the parser does not
guarantee a non-empty `argv` on success. -/
theorem parser_rejects_only_empty_segments :
    (∀ rest, parse_pipeline ("|" :: rest) = PRes.error (ParseErr.unexpectedTok "|")) ∧
    (∀ f, parse_command ["<", f] =
      PRes.ok { argv := [], input_file := some f, output_file := none,
                append_mode := false, background := false }) ∧
    (∀ f g, parse_command ["<", f, ">", g] =
      PRes.ok { argv := [], input_file := some f, output_file := some g,
                append_mode := false, background := false }) := by
  refine ⟨?_, ?_, ?_⟩
  · intro rest
    simp [parse_pipeline, pipeSplitLoop]
  · intro f
    rfl
  · intro f g
    rfl

/-- One word-token step of `parseCmdLoop`: a token that is none of the four
operator spellings is appended to `argv` while `argc` advances. -/
theorem parseCmdLoop_word (t : String) (rest : List String) (argc : Nat) (cmd : Command)
    (hargc : argc < MAX_ARGS - 1)
    (h1 : t ≠ "<") (h2 : t ≠ ">") (h3 : t ≠ ">>") (h4 : t ≠ "&") :
    parseCmdLoop (t :: rest) argc cmd =
      parseCmdLoop rest (argc + 1) { cmd with argv := cmd.argv ++ [t] } := by
  rw [parseCmdLoop.eq_def]
  simp [hargc, h1, h2, h3, h4]

/-- A `&` followed by a further token of the same segment makes
`parseCmdLoop` fail with the "& must be at end of command" diagnostic,
provided the preceding tokens are plain words and the `argc` cap has not been
reached. -/
theorem parseCmdLoop_amp_not_last (x : String) (post : List String) :
    ∀ (pre : List String) (argc : Nat) (cmd : Command),
      (∀ t ∈ pre, t ≠ "<" ∧ t ≠ ">" ∧ t ≠ ">>" ∧ t ≠ "&") →
      argc + pre.length < MAX_ARGS - 1 →
      parseCmdLoop (pre ++ "&" :: x :: post) argc cmd = .error .ampMustBeAtEnd := by
  intro pre
  induction pre with
  | nil =>
    intro argc cmd _ hlen
    simp only [List.length_nil, Nat.add_zero] at hlen
    simp [parseCmdLoop, hlen]
  | cons t pre ih =>
    intro argc cmd h hlen
    have ht := h t (by simp)
    have hargc : argc < MAX_ARGS - 1 := by
      simp only [List.length_cons] at hlen
      omega
    rw [List.cons_append,
      parseCmdLoop_word t _ argc cmd hargc ht.1 ht.2.1 ht.2.2.1 ht.2.2.2]
    exact ih (argc + 1) _ (fun u hu => h u (List.mem_cons_of_mem _ hu))
      (by simp only [List.length_cons] at hlen; omega)

/-- C4 counterexample: in the token sequence `a & | b` the token `&` is not
at the final position of the entire pipeline, yet `parse_pipeline` succeeds:
the `&` only sets the background flag of the first command (and not of the
pipeline). -/
theorem amp_before_pipe_accepted_cex :
    parse_pipeline ["a", "&", "|", "b"] =
      PRes.ok ⟨[⟨["a"], none, none, false, true⟩, ⟨["b"], none, none, false, false⟩],
        2, false⟩ := by decide

/-- C4 amended: the `&` position check is local to one pipe segment: a `&`
followed by a further token OF ITS SEGMENT fails with "& must be at end of
command", while a `&` at the end of a non-final segment is accepted and sets
that command's background flag; a trailing `&` on the entire sequence sets
the pipeline's background flag and is removed before the reduction of the
last segment. -/
theorem amp_check_is_segment_local (pre : List String) (x : String) (post : List String)
    (h : ∀ t ∈ pre, t ≠ "<" ∧ t ≠ ">" ∧ t ≠ ">>" ∧ t ≠ "&")
    (hlen : pre.length < MAX_ARGS - 1) :
    parse_command (pre ++ "&" :: x :: post) = PRes.error ParseErr.ampMustBeAtEnd ∧
    parse_pipeline ["a", "&", "|", "b"] =
      PRes.ok ⟨[⟨["a"], none, none, false, true⟩, ⟨["b"], none, none, false, false⟩],
        2, false⟩ ∧
    parse_pipeline ["a", "&"] =
      PRes.ok ⟨[⟨["a"], none, none, false, false⟩], 1, true⟩ := by
  refine ⟨?_, by decide, by decide⟩
  have hne : (pre ++ "&" :: x :: post).isEmpty = false := by
    cases pre <;> simp
  simp only [parse_command, hne, Bool.false_eq_true, if_false]
  exact parseCmdLoop_amp_not_last x post pre 0 _ h (by omega)

/-- Witness for C4 at the concrete segment `w & x`. -/
theorem amp_check_is_segment_local_witness :
    parse_command ["w", "&", "x"] = PRes.error ParseErr.ampMustBeAtEnd :=
  (amp_check_is_segment_local ["w"] "x" [] (by decide) (by decide)).1

/-- C5: for every character `c` following a backslash inside a double-quoted
region (with room left in the token buffer and the token table), the lexer
appends exactly one character to the current token — `\n` for `n`, `\t` for
`t`, `\r` for `r`, `\` for `\`, `"` for `"`, `'` for `'`, NUL for `0`, and
`c` itself for any other character — and returns to the DoubleQuote state. -/
theorem dquote_escape_appends_one (env : String → Option String) (fuel : Nat)
    (c : Char) (rest buf : List Char) (toks : List (List Char))
    (hbuf : buf.length < MAX_INPUT_SIZE - 1) (htoks : toks.length < MAX_TOKENS - 1) :
    tokLoop env (fuel + 1) (c :: rest) .escape buf toks =
      tokLoop env fuel rest .doubleQuote (buf ++ [process_escape c]) toks ∧
    process_escape 'n' = '\n' ∧ process_escape 't' = '\t' ∧
    process_escape 'r' = '\r' ∧ process_escape '\\' = '\\' ∧
    process_escape dquoteChar = dquoteChar ∧
    process_escape squoteChar = squoteChar ∧
    process_escape '0' = Char.ofNat 0 ∧
    (∀ d, d ≠ 'n' → d ≠ 't' → d ≠ 'r' → d ≠ '\\' → d ≠ dquoteChar →
      d ≠ squoteChar → d ≠ '0' → process_escape d = d) := by
  refine ⟨?_, by decide, by decide, by decide, by decide, by decide, by decide, by decide, ?_⟩
  · simp [tokLoop, htoks, appendBuf, hbuf]
  · intro d h1 h2 h3 h4 h5 h6 h7
    simp [process_escape, h1, h2, h3, h4, h5, h6, h7]

/-- Witness for C5 at the escape sequence for `n` on an empty buffer. -/
theorem dquote_escape_appends_one_witness :
    tokLoop (fun _ => none) 1 ['n'] .escape [] [] =
      tokLoop (fun _ => none) 0 [] .doubleQuote ['\n'] [] :=
  (dquote_escape_appends_one (fun _ => none) 0 'n' [] [] [] (by decide) (by decide)).1

/-! ### Job table lemmas -/

/-- `add_job` either fails leaving the state unchanged, or fills the first
free slot with the current `next_job_id` and bumps both counters. -/
theorem add_job_cases (s : JobsState) (p : Int) (c : String) (st : JobStatus) :
    add_job s p c st = (none, s) ∨
    ∃ slot, findFreeSlot s.job_table = some slot ∧
      add_job s p c st = (some s.next_job_id,
        { job_table := s.job_table.set slot
            { job_id := s.next_job_id, pgid := p, command := some c, status := st },
          next_job_id := s.next_job_id + 1, num_jobs := s.num_jobs + 1 }) := by
  unfold add_job
  split
  · exact Or.inl rfl
  · cases h : findFreeSlot s.job_table with
    | none => exact Or.inl rfl
    | some slot => exact Or.inr ⟨slot, rfl, rfl⟩

/-- A successful `findFreeSlot` names an in-range slot whose `job_id` is `0`
and before which every slot is used. -/
theorem findFreeSlot_some_spec :
    ∀ (l : List Job) (i : Nat), findFreeSlot l = some i →
      i < l.length ∧ (∃ f, l[i]? = some f ∧ f.job_id = 0) ∧
      (∀ j, j < i → ∀ f, l[j]? = some f → f.job_id ≠ 0) := by
  intro l
  induction l with
  | nil => intro i h; simp [findFreeSlot] at h
  | cons e rest ih =>
    intro i h
    by_cases he : e.job_id = 0
    · simp [findFreeSlot, he] at h
      subst h
      exact ⟨Nat.succ_pos _, ⟨e, by simp, he⟩, fun j hj => absurd hj (Nat.not_lt_zero j)⟩
    · simp [findFreeSlot, he] at h
      obtain ⟨i0, hi0, rfl⟩ := h
      obtain ⟨hlt, ⟨f, hf, hf0⟩, hbefore⟩ := ih i0 hi0
      refine ⟨by simpa using Nat.succ_lt_succ hlt, ⟨f, by simpa using hf, hf0⟩, ?_⟩
      intro j hj g hg
      cases j with
      | zero =>
        simp only [List.getElem?_cons_zero, Option.some.injEq] at hg
        subst hg; exact he
      | succ j0 =>
        simp only [List.getElem?_cons_succ] at hg
        exact hbefore j0 (Nat.lt_of_succ_lt_succ hj) g hg

/-- Pigeonhole: fewer used slots than slots means a free slot exists. -/
theorem findFreeSlot_of_count :
    ∀ l : List Job, countUsed l < l.length → ∃ i, findFreeSlot l = some i := by
  intro l
  induction l with
  | nil => intro h; simp [countUsed] at h
  | cons e rest ih =>
    intro h
    by_cases he : e.job_id = 0
    · exact ⟨0, by simp [findFreeSlot, he]⟩
    · have hc : countUsed (e :: rest) = countUsed rest + 1 := by
        simp [countUsed, List.countP_cons, he]
      have : countUsed rest < rest.length := by
        simp only [List.length_cons] at h; omega
      obtain ⟨i, hi⟩ := ih this
      exact ⟨i + 1, by simp [findFreeSlot, he, hi]⟩

/-- A successful `findSlotById` names a slot holding the searched id. -/
theorem findSlotById_some_spec (id : Nat) :
    ∀ (l : List Job) (i : Nat), findSlotById id l = some i →
      ∃ f, l[i]? = some f ∧ f.job_id = id := by
  intro l
  induction l with
  | nil => intro i h; simp [findSlotById] at h
  | cons e rest ih =>
    intro i h
    by_cases he : e.job_id = id
    · simp [findSlotById, he] at h
      subst h
      exact ⟨e, by simp, he⟩
    · simp [findSlotById, he] at h
      obtain ⟨i0, hi0, rfl⟩ := h
      obtain ⟨f, hf, hfid⟩ := ih i0 hi0
      exact ⟨f, by simpa using hf, hfid⟩

/-- Setting slot `i` trades the `used` contribution of the old entry for that
of the new one. -/
theorem countUsed_set :
    ∀ (l : List Job) (i : Nat) (f e : Job), l[i]? = some f →
      countUsed (l.set i e) + (if f.job_id ≠ 0 then 1 else 0) =
        countUsed l + (if e.job_id ≠ 0 then 1 else 0) := by
  intro l
  induction l with
  | nil => intro i f e hf; simp at hf
  | cons a rest ih =>
    intro i f e hf
    cases i with
    | zero =>
      simp only [List.getElem?_cons_zero, Option.some.injEq] at hf
      subst hf
      simp only [List.set_cons_zero, countUsed, List.countP_cons]
      by_cases ha : a.job_id = 0 <;> by_cases hb : e.job_id = 0 <;>
        simp [ha, hb]
    | succ j =>
      simp only [List.getElem?_cons_succ] at hf
      have := ih j f e hf
      simp only [List.set_cons_succ, countUsed, List.countP_cons] at *
      by_cases ha : a.job_id = 0 <;> simp [ha] at * <;> omega

/-- Clearing the done slots removes exactly `countP jobDoneP` used slots. -/
theorem cleanup_count (l : List Job) :
    countUsed (l.map clearSlot) + l.countP jobDoneP = countUsed l := by
  induction l with
  | nil => simp [countUsed]
  | cons e rest ih =>
    by_cases hd : jobDoneP e = true
    · have he : e.job_id ≠ 0 := by
        simp only [jobDoneP, decide_eq_true_eq] at hd
        exact hd.1
      simp only [List.map_cons, countUsed, List.countP_cons, clearSlot, hd, if_true] at *
      simp [he] at *
      omega
    · simp only [List.map_cons, countUsed, List.countP_cons, clearSlot, hd, if_false] at *
      by_cases he : e.job_id = 0 <;> simp [he, hd] at * <;> omega

/-- One job-table operation that is not `remove_job(0)` preserves the
counting invariant and the positivity of the id counter. -/
theorem applyOp_preserves_inv (s : JobsState) (op : JobOp) (hok : opOk op = true)
    (hinv : jobsInv s) (hnext : 1 ≤ s.next_job_id) :
    jobsInv (applyOp s op) ∧ 1 ≤ (applyOp s op).next_job_id := by
  cases op with
  | add p c st =>
    show jobsInv (add_job s p c st).2 ∧ 1 ≤ (add_job s p c st).2.next_job_id
    rcases add_job_cases s p c st with h | ⟨slot, hslot, h⟩
    · rw [h]; exact ⟨hinv, hnext⟩
    · rw [h]
      obtain ⟨-, ⟨f, hf, hf0⟩, -⟩ := findFreeSlot_some_spec s.job_table slot hslot
      have hne : s.next_job_id ≠ 0 := by omega
      have hcount := countUsed_set s.job_table slot f
        { job_id := s.next_job_id, pgid := p, command := some c, status := st } hf
      simp only [hf0] at hcount
      simp [hne] at hcount
      simp only [jobsInv] at hinv ⊢
      constructor
      · omega
      · show 1 ≤ s.next_job_id + 1
        omega
  | remove id =>
    show jobsInv (remove_job s id) ∧ 1 ≤ (remove_job s id).next_job_id
    have hid : id ≠ 0 := by simpa [opOk] using hok
    unfold remove_job
    cases h : findSlotById id s.job_table with
    | none => exact ⟨hinv, hnext⟩
    | some i =>
      obtain ⟨f, hf, hfid⟩ := findSlotById_some_spec id s.job_table i h
      have hfne : f.job_id ≠ 0 := by rw [hfid]; exact hid
      have hcount := countUsed_set s.job_table i f
        { job_id := 0, pgid := 0, command := none, status := .done } hf
      simp [hfne] at hcount
      simp only [jobsInv] at hinv ⊢
      constructor
      · omega
      · exact hnext
  | cleanup =>
    show jobsInv (cleanup_jobs s) ∧ 1 ≤ (cleanup_jobs s).next_job_id
    have hcount := cleanup_count s.job_table
    simp only [jobsInv, cleanup_jobs] at hinv ⊢
    exact ⟨by omega, hnext⟩

/-- Folding well-formed operations from an invariant state keeps the
invariant. -/
theorem foldl_preserves_inv :
    ∀ (ops : List JobOp) (s : JobsState), (∀ op ∈ ops, opOk op = true) →
      jobsInv s → 1 ≤ s.next_job_id →
      jobsInv (ops.foldl applyOp s) ∧ 1 ≤ (ops.foldl applyOp s).next_job_id := by
  intro ops
  induction ops with
  | nil => intro s _ hinv hnext; exact ⟨hinv, hnext⟩
  | cons op rest ih =>
    intro s h hinv hnext
    have hstep := applyOp_preserves_inv s op (h op (by simp)) hinv hnext
    exact ih (applyOp s op) (fun u hu => h u (by simp [hu])) hstep.1 hstep.2

/-- No operation ever decreases the id counter. -/
theorem applyOp_next_mono (s : JobsState) (op : JobOp) :
    s.next_job_id ≤ (applyOp s op).next_job_id := by
  cases op with
  | add p c st =>
    show s.next_job_id ≤ (add_job s p c st).2.next_job_id
    rcases add_job_cases s p c st with h | ⟨slot, -, h⟩
    · rw [h]
    · rw [h]
      show s.next_job_id ≤ s.next_job_id + 1
      omega
  | remove id =>
    show s.next_job_id ≤ (remove_job s id).next_job_id
    unfold remove_job
    cases findSlotById id s.job_table
    · exact Nat.le_refl _
    · exact Nat.le_refl _
  | cleanup => exact Nat.le_refl _

/-- Every id assigned from state `s` onward is at least `s.next_job_id`. -/
theorem assignedIds_lb :
    ∀ (ops : List JobOp) (s : JobsState) (id : Nat),
      id ∈ assignedIds s ops → s.next_job_id ≤ id := by
  intro ops
  induction ops with
  | nil => intro s id h; simp [assignedIds] at h
  | cons op rest ih =>
    intro s id h
    cases op with
    | add p c st =>
      rcases add_job_cases s p c st with ha | ⟨slot, -, ha⟩ <;>
        simp only [assignedIds, ha] at h
      · exact ih s id h
      · rcases List.mem_cons.mp h with rfl | htail
        · exact le_refl _
        · have := ih _ id htail
          simp only at this
          omega
    | remove jid =>
      simp only [assignedIds] at h
      have := ih _ id h
      have hmono := applyOp_next_mono s (.remove jid)
      omega
    | cleanup =>
      simp only [assignedIds] at h
      have := ih _ id h
      have hmono := applyOp_next_mono s .cleanup
      omega

/-- The ids assigned from any state form a strictly increasing sequence. -/
theorem assignedIds_sorted :
    ∀ (ops : List JobOp) (s : JobsState), (assignedIds s ops).Pairwise (· < ·) := by
  intro ops
  induction ops with
  | nil => intro s; simp [assignedIds]
  | cons op rest ih =>
    intro s
    cases op with
    | add p c st =>
      rcases add_job_cases s p c st with ha | ⟨slot, -, ha⟩ <;>
        simp only [assignedIds, ha]
      · exact ih s
      · refine List.Pairwise.cons ?_ (ih _)
        intro b hb
        have := assignedIds_lb rest _ b hb
        simp only at this
        omega
    | remove jid => simp only [assignedIds]; exact ih _
    | cleanup => simp only [assignedIds]; exact ih _

/-- C6: over every sequence of job-table operations after `init_jobs`, the
ids returned by successive successful `add_job` calls are strictly
increasing positive integers, and no id is ever assigned twice within the
session — removal or purging of the job holding an id notwithstanding. -/
theorem job_ids_strictly_increasing (ops : List JobOp) :
    (assignedIds init_jobs ops).Pairwise (· < ·) ∧
    (assignedIds init_jobs ops).Nodup ∧
    (∀ id ∈ assignedIds init_jobs ops, 0 < id) := by
  refine ⟨assignedIds_sorted ops init_jobs, ?_, ?_⟩
  · exact (assignedIds_sorted ops init_jobs).imp Nat.ne_of_lt
  · intro id hid
    have := assignedIds_lb ops init_jobs id hid
    simp only [init_jobs] at this
    omega

/-- C7: `add_job` fails (returning the failure value with the state
unchanged) when the table already holds `MAX_JOBS = 100` entries, and
otherwise stores the new job in the lowest-indexed unused slot — every slot
below it is used — returning the freshly allocated id `next_job_id`; on any
failure the state is unchanged. -/
theorem add_job_contract (s : JobsState) (p : Int) (c : String) (st : JobStatus)
    (hlen : s.job_table.length = MAX_JOBS) (hinv : jobsInv s) :
    ((MAX_JOBS : Int) ≤ s.num_jobs → add_job s p c st = (none, s)) ∧
    (∀ r, add_job s p c st = (none, r) → r = s) ∧
    (s.num_jobs < (MAX_JOBS : Int) →
      ∃ slot, findFreeSlot s.job_table = some slot ∧ slot < MAX_JOBS ∧
        (∃ f, s.job_table[slot]? = some f ∧ f.job_id = 0) ∧
        (∀ j, j < slot → ∀ f, s.job_table[j]? = some f → f.job_id ≠ 0) ∧
        add_job s p c st = (some s.next_job_id,
          { job_table := s.job_table.set slot
              { job_id := s.next_job_id, pgid := p, command := some c, status := st },
            next_job_id := s.next_job_id + 1, num_jobs := s.num_jobs + 1 })) := by
  refine ⟨?_, ?_, ?_⟩
  · intro h
    simp [add_job, h]
  · intro r h
    unfold add_job at h
    split at h
    · exact (Prod.mk.injEq _ _ _ _ ▸ h).2.symm
    · cases hf : findFreeSlot s.job_table with
      | none => rw [hf] at h; exact (Prod.mk.injEq _ _ _ _ ▸ h).2.symm
      | some slot => rw [hf] at h; exact absurd (Prod.mk.injEq _ _ _ _ ▸ h).1 (by simp)
  · intro h
    have hcnt : countUsed s.job_table < s.job_table.length := by
      rw [hlen]
      have : (countUsed s.job_table : Int) < (MAX_JOBS : Int) := by
        rw [jobsInv] at hinv; omega
      exact_mod_cast this
    obtain ⟨slot, hslot⟩ := findFreeSlot_of_count s.job_table hcnt
    obtain ⟨hlt, hfree, hbefore⟩ := findFreeSlot_some_spec s.job_table slot hslot
    refine ⟨slot, hslot, by omega, hfree, hbefore, ?_⟩
    unfold add_job
    rw [if_neg (by omega), hslot]

/-- Witness for C7: adding to the freshly initialized table stores the job in
slot 0 and returns id 1. -/
theorem add_job_contract_witness :
    add_job init_jobs 7 "sleep" JobStatus.running =
      (some init_jobs.next_job_id,
       { job_table := init_jobs.job_table.set 0
           { job_id := init_jobs.next_job_id, pgid := 7, command := some "sleep",
             status := JobStatus.running },
         next_job_id := init_jobs.next_job_id + 1,
         num_jobs := init_jobs.num_jobs + 1 }) := by
  obtain ⟨-, -, h3⟩ :=
    add_job_contract init_jobs 7 "sleep" JobStatus.running (by decide) (by decide)
  obtain ⟨slot, hs, -, -, -, heq⟩ := h3 (by decide)
  have hslot : slot = 0 := by
    have h0 : findFreeSlot init_jobs.job_table = some 0 := by decide
    rw [h0] at hs
    exact (Option.some.inj hs).symm
  rw [hslot] at heq
  exact heq

/-- C9 counterexample: calling `remove_job` with argument `0` right after
`init_jobs` finds the (free) slot 0, decrements `num_jobs` to `-1`, and
clears no used slot, so `num_jobs` no longer equals the number of slots with
nonzero `job_id`. -/
theorem remove_job_zero_breaks_inv : ¬ jobsInv (remove_job init_jobs 0) := by decide

/-- C9 amended: the invariant `num_jobs =` number of slots with nonzero
`job_id` is established by `init_jobs` and preserved by every sequence of
successful `add_job`, `remove_job` and `cleanup_jobs` operations (allocation
assumed to succeed), provided `remove_job` is never called with job id `0`; a
`remove_job(0)` call can break it. -/
theorem numjobs_matches_used_slots (ops : List JobOp)
    (h : ∀ op ∈ ops, opOk op = true) : jobsInv (runOps ops) :=
  (foldl_preserves_inv ops init_jobs h (by decide) (by decide)).1

/-- Witness for C9 at a concrete three-operation session. -/
theorem numjobs_matches_used_slots_witness :
    jobsInv (runOps [JobOp.add 5 "x" JobStatus.running, JobOp.remove 1, JobOp.cleanup]) :=
  numjobs_matches_used_slots
    [JobOp.add 5 "x" JobStatus.running, JobOp.remove 1, JobOp.cleanup] (by decide)

end CustomShell
